import Mathlib

/-!
Verification of the relay chat server (src/): command protocol, room-code
generator, room registry, room member counter, and the per-connection
session state machine.  Rust strings are modelled as `List Char`, the
`usize` member counter as `Nat` reduced modulo `2 ^ 64`, the shared
`Arc`-backed rooms as slots of an explicit heap indexed by `Nat`, and the
thread-local random generator as an explicit stream of draws (`List Nat`).
-/

/-- Convert a Lean string literal to the `List Char` representation used
throughout this development for Rust `String` and `&str` values. -/
def chars (s : String) : List Char := s.data

/-- Whitespace predicate of Rust `char::is_whitespace` (the Unicode
White_Space property), used by `str::trim`. -/
def isRustWhitespace (c : Char) : Bool :=
  let n := c.toNat
  (0x09 ≤ n && n ≤ 0x0D) || n = 0x20 || n = 0x85 || n = 0xA0 || n = 0x1680 ||
    (0x2000 ≤ n && n ≤ 0x200A) || n = 0x2028 || n = 0x2029 || n = 0x202F ||
    n = 0x205F || n = 0x3000

/-- Rust `str::trim`: drop leading and trailing whitespace. -/
def trimChars (s : List Char) : List Char :=
  ((s.dropWhile isRustWhitespace).reverse.dropWhile isRustWhitespace).reverse

/-- Rust `line.trim().splitn(2, ' ')` realised on the trimmed input: the
part before the first space, and, when a space occurs, the part after it. -/
def splitFirstSpace : List Char → List Char × Option (List Char)
  | [] => ([], none)
  | c :: cs =>
    if c = ' ' then ([], some cs)
    else (c :: (splitFirstSpace cs).1, (splitFirstSpace cs).2)

/-- Rust `str::to_uppercase`, modelled for the ASCII range (every input
exercised by the claims is ASCII). -/
def toUpperChars (s : List Char) : List Char := s.map Char.toUpper

/-- src/protocol.rs: `enum Command`. -/
inductive Command
  | Help
  | Quit
  | Nick (name : List Char)
  | Create
  | Join (code : List Char)
  | Msg (text : List Char)
deriving DecidableEq, Repr

/-- src/protocol.rs: `parse_command`.  Splits the trimmed line on the first
space into an uppercased command word and an optional trimmed remainder,
then dispatches on the command word exactly as the Rust `match` does. -/
def parse_command (line : List Char) : Except (List Char) Command :=
  let t := trimChars line
  let cmd := toUpperChars (splitFirstSpace t).1
  let rest := ((splitFirstSpace t).2).map trimChars
  if cmd = chars "HELP" then Except.ok Command.Help
  else if cmd = chars "QUIT" then Except.ok Command.Quit
  else if cmd = chars "NICK" then
    match rest with
    | none => Except.error (chars "usage: NICK <name>")
    | some name =>
      if name = [] then Except.error (chars "nickname cannot be empty")
      else Except.ok (Command.Nick name)
  else if cmd = chars "CREATE" then Except.ok Command.Create
  else if cmd = chars "JOIN" then
    match rest with
    | none => Except.error (chars "usage: JOIN <CODE>")
    | some code => Except.ok (Command.Join (toUpperChars code))
  else if cmd = chars "MSG" then
    match rest with
    | none => Except.error (chars "usage: MSG <text>")
    | some text => Except.ok (Command.Msg text)
  else Except.error (chars "unknown command: " ++ cmd)

/-- Modulus of the 64-bit `usize` member counter (`AtomicUsize` on a
64-bit target); `fetch_add`/`fetch_sub` wrap modulo this value. -/
def USIZE : Nat := 2 ^ 64

/-- src/room.rs: `Room`.  The broadcast sender is modelled by the list of
messages published so far (`msgs`, the fan-out history a subscriber reads
from), `users` is the `AtomicUsize` member counter, and `capacity` records
the bounded backlog passed to `broadcast::channel`. -/
structure Room where
  users : Nat
  msgs : List (List Char)
  capacity : Nat
deriving DecidableEq, Repr

/-- src/room.rs: `Room::new(capacity)`: fresh channel, counter at 0. -/
def Room.new (capacity : Nat) : Room := ⟨0, [], capacity⟩

/-- src/room.rs: `Room::subscribe`: a new receiving end starts at the
current end of the message history (it sees only later messages). -/
def Room.subscribe (r : Room) : Nat := r.msgs.length

/-- src/room.rs: `Room::send`: publish a message to the channel. -/
def Room.send (r : Room) (m : List Char) : Room := { r with msgs := r.msgs ++ [m] }

/-- src/room.rs: `Room::inc`: `users.fetch_add(1)`, wrapping `usize`. -/
def Room.inc (r : Room) : Room := { r with users := (r.users + 1) % USIZE }

/-- src/room.rs: `Room::dec`: `users.fetch_sub(1)`, wrapping `usize`. -/
def Room.dec (r : Room) : Room := { r with users := (r.users + (USIZE - 1)) % USIZE }

/-- src/room.rs: `Room::len`: snapshot read of the member counter. -/
def Room.len (r : Room) : Nat := r.users

/-- src/state.rs: `ServerState`.  The `Arc`-shared `Room` values live in an
explicit heap (`heap`, indexed by allocation order) so that the clones the
registry and the sessions hold all alias one slot; the `DashMap` maps a
room code to the heap slot of its room. -/
structure ServerState where
  heap : List Room
  rooms : List Char → Option Nat

/-- The room stored in heap slot `i` (slot indices handed out by
`get_room` are always in range; the default is never reached there). -/
def roomAt (st : ServerState) (i : Nat) : Room := st.heap.getD i (Room.new 0)

/-- Replace the room in heap slot `i`: the update every `Arc` clone of that
room observes. -/
def heapSet (st : ServerState) (i : Nat) (r : Room) : ServerState :=
  { st with heap := st.heap.set i r }

/-- `room.inc()` performed through the shared handle to slot `i`. -/
def heapInc (st : ServerState) (i : Nat) : ServerState := heapSet st i (roomAt st i).inc

/-- `room.dec()` performed through the shared handle to slot `i`. -/
def heapDec (st : ServerState) (i : Nat) : ServerState := heapSet st i (roomAt st i).dec

/-- `room.send(m)` performed through the shared handle to slot `i`. -/
def heapSend (st : ServerState) (i : Nat) (m : List Char) : ServerState :=
  heapSet st i ((roomAt st i).send m)

/-- src/state.rs: `DashMap::contains_key` on the registry. -/
def ServerState.contains_key (st : ServerState) (code : List Char) : Bool :=
  (st.rooms code).isSome

/-- src/state.rs: `ServerState::insert_room` (DashMap insert: last writer
wins on key collision).  The room value is the shared handle `i`. -/
def ServerState.insert_room (st : ServerState) (code : List Char) (i : Nat) : ServerState :=
  { st with rooms := fun c => if c = code then some i else st.rooms c }

/-- src/state.rs: `ServerState::get_room`: clone of the shared handle. -/
def ServerState.get_room (st : ServerState) (code : List Char) : Option Nat :=
  st.rooms code

/-- src/state.rs: `ServerState::remove_if_empty`: look the code up, read
the member counter, and remove the entry only when the snapshot is 0. -/
def ServerState.remove_if_empty (st : ServerState) (code : List Char) : ServerState :=
  match st.rooms code with
  | some i =>
    if (roomAt st i).len = 0 then
      { st with rooms := fun c => if c = code then none else st.rooms c }
    else st
  | none => st

/-- src/codegen.rs: `ALPHABET`. -/
def ALPHABET : List Char := chars "ABCDEFGHJKMNPQRSTUVWXYZ23456789"

/-- src/codegen.rs: `CODE_LEN`. -/
def CODE_LEN : Nat := 8

/-- src/codegen.rs: `make_code(len)`.  The thread-local generator is an
explicit stream of draws; each `gen_range(0..ALPHABET.len())` consumes one
draw, reduced into range.  Returns the code and the rest of the stream. -/
def make_code : List Nat → Nat → List Char × List Nat
  | rng, 0 => ([], rng)
  | rng, len + 1 =>
    let i := rng.headD 0 % ALPHABET.length
    let r := make_code rng.tail len
    (ALPHABET.getD i 'A' :: r.1, r.2)

/-- src/codegen.rs: the retry loop of `unique_code`, counting the
remaining attempts down from 16; when they are exhausted it falls back to
one `make_code(len + 1)` with no registry check. -/
def unique_go (st : ServerState) (len : Nat) : Nat → List Nat → List Char × List Nat
  | 0, rng => make_code rng (len + 1)
  | fuel + 1, rng =>
    let r := make_code rng len
    if st.contains_key r.1 then unique_go st len fuel r.2 else r

/-- src/codegen.rs: `unique_code(state, len)`. -/
def unique_code (st : ServerState) (rng : List Nat) (len : Nat) : List Char × List Nat :=
  unique_go st len 16 rng

/-- The stream state after `i` complete `make_code(len)` attempts. -/
def rngAfter (rng : List Nat) (len : Nat) : Nat → List Nat
  | 0 => rng
  | i + 1 => (make_code (rngAfter rng len i) len).2

/-- The code produced by the `i`-th attempt of the `unique_code` loop. -/
def cand (rng : List Nat) (len i : Nat) : List Char :=
  (make_code (rngAfter rng len i) len).1

/-- A `broadcast::Receiver` clone: the heap slot of the room it is attached
to and the number of messages of that room it has already consumed. -/
structure Receiver where
  room : Nat
  seen : Nat
deriving DecidableEq, Repr

/-- src/conn.rs: `ClientCtx`. -/
structure ClientCtx where
  nick : Option (List Char)
  room_code : Option (List Char)
  room_rx : Option Receiver
deriving DecidableEq, Repr

/-- src/conn.rs: `ClientCtx::new`. -/
def ClientCtx.new : ClientCtx := ⟨none, none, none⟩

/-- Result of one `handle_command` dispatch: the updated shared state and
session context, the lines written to this client (each entry one
`write_all` call, trailing newline included), the `Err` payload when the
dispatch returned `Err`, and the rest of the random stream. -/
structure CmdOut where
  st : ServerState
  ctx : ClientCtx
  writes : List (List Char)
  err : Option (List Char)
  rng : List Nat

/-- src/conn.rs: the one `write_all` payload of the HELP response. -/
def helpText : List Char :=
  chars "Commands:\nNICK <name>   - set your nickname\nCREATE        - create a new room\nJOIN <CODE>   - join an existing room\nMSG <text>    - send a message to your room\nQUIT          - disconnect\n"

/-- src/conn.rs: `handle_command`, branch by branch.  `Quit` writes the
farewell and then returns `Err("client quit")`; `Create` allocates a fresh
room in the heap, registers it, increments, subscribes, announces;
`Join` first runs the leave block whenever `ctx.room_code` is set and that
old code still resolves in the registry (even when it equals the target),
then subscribes, increments and announces on the shared handle obtained
before the leave block ran. -/
def handle_command (st : ServerState) (ctx : ClientCtx) (rng : List Nat) :
    Command → CmdOut
  | Command.Help => ⟨st, ctx, [helpText], none, rng⟩
  | Command.Quit => ⟨st, ctx, [chars "Goodbye.\n"], some (chars "client quit"), rng⟩
  | Command.Nick name =>
    ⟨st, { ctx with nick := some name },
     [chars "[ok] nickname set to '" ++ name ++ chars "'\n"], none, rng⟩
  | Command.Create =>
    match ctx.nick with
    | none => ⟨st, ctx, [], some (chars "set a nickname first: NICK <name>"), rng⟩
    | some nick =>
      let u := unique_code st rng CODE_LEN
      let i := st.heap.length
      let st1 := ServerState.insert_room ⟨st.heap ++ [Room.new 512], st.rooms⟩ u.1 i
      let st2 := heapInc st1 i
      let rx : Receiver := ⟨i, (roomAt st2 i).subscribe⟩
      let st3 := heapSend st2 i (chars "[server] " ++ nick ++ chars " joined")
      ⟨st3, { ctx with room_code := some u.1, room_rx := some rx },
       [chars "[ok] room created: " ++ u.1 ++ chars "\n"], none, u.2⟩
  | Command.Join code =>
    match ctx.nick with
    | none => ⟨st, ctx, [], some (chars "set a nickname first: NICK <name>"), rng⟩
    | some nick =>
      match ServerState.get_room st code with
      | none => ⟨st, ctx, [], some (chars "no such room: " ++ code), rng⟩
      | some i =>
        let step1 :=
          match ctx.room_code with
          | some old =>
            (match ServerState.get_room st old with
             | some j =>
               ServerState.remove_if_empty
                 (heapSend (heapDec st j) j (chars "[server] " ++ nick ++ chars " left.")) old
             | none => st,
             { ctx with room_code := none, room_rx := none })
          | none => (st, ctx)
        let st1 := step1.1
        let ctx1 := step1.2
        let rx : Receiver := ⟨i, (roomAt st1 i).subscribe⟩
        let st2 := heapSend (heapInc st1 i) i (chars "[server] " ++ nick ++ chars " joined.")
        ⟨st2, { ctx1 with room_code := some code, room_rx := some rx },
         [chars "[ok] joined room '" ++ code ++ chars "'\n"], none, rng⟩
  | Command.Msg text =>
    match ctx.nick with
    | none => ⟨st, ctx, [], some (chars "set a nickname first: NICK <name>"), rng⟩
    | some nick =>
      match ctx.room_code with
      | none => ⟨st, ctx, [], some (chars "join a room first: JOIN <CODE>"), rng⟩
      | some code =>
        match ServerState.get_room st code with
        | none => ⟨st, ctx, [], some (chars "room no longer exists"), rng⟩
        | some i => ⟨heapSend st i (nick ++ chars ": " ++ text), ctx, [], none, rng⟩

/-- One event the `handle` loop can react to: a client line, end of the
client stream, or one of the three outcomes of `rx.recv()` on the room
subscription (next message, a lag notification, channel closed). -/
inductive Ev
  | line (s : List Char)
  | eof
  | rxMsg
  | rxLagged (n : Nat)
  | rxClosed
deriving DecidableEq, Repr

/-- The loop-carried state of `handle`: shared server state, the private
session context, and the rest of the random stream. -/
structure LoopState where
  st : ServerState
  ctx : ClientCtx
  rng : List Nat

/-- Outcome of one loop iteration: continue looping, or leave the loop
(the `break` on end of stream, after which the disconnect cleanup ran). -/
inductive StepRes
  | cont (ls : LoopState) (outs : List (List Char))
  | halt (ls : LoopState) (outs : List (List Char))

/-- src/conn.rs: the cleanup block after the loop: take `room_code`, and if
the room still resolves, decrement it, announce the departure when a
nickname is known, and attempt the reap. -/
def cleanupState (st : ServerState) (ctx : ClientCtx) : ServerState :=
  match ctx.room_code with
  | some code =>
    match ServerState.get_room st code with
    | some j =>
      let st1 := heapDec st j
      let st2 :=
        match ctx.nick with
        | some nick => heapSend st1 j (chars "[server] " ++ nick ++ chars " left.")
        | none => st1
      ServerState.remove_if_empty st2 code
    | none => st
  | none => st

/-- src/conn.rs: one iteration of the `handle` loop.  A client line is
trimmed, empty input loops silently, parse errors and `Err` results of
`handle_command` are both reported as `[error] ...` lines and the loop
continues; end of stream breaks out through the cleanup block; the three
`rx.recv()` outcomes are only possible while a subscription is held (the
select only polls it then) and otherwise leave the state unchanged. -/
def session_step (ls : LoopState) : Ev → StepRes
  | Ev.line s =>
    let t := trimChars s
    if t = [] then StepRes.cont ls []
    else
      match parse_command t with
      | Except.error e => StepRes.cont ls [chars "[error] " ++ e ++ chars "\n"]
      | Except.ok cmd =>
        let r := handle_command ls.st ls.ctx ls.rng cmd
        match r.err with
        | some e =>
          StepRes.cont ⟨r.st, r.ctx, r.rng⟩ (r.writes ++ [chars "[error] " ++ e ++ chars "\n"])
        | none => StepRes.cont ⟨r.st, r.ctx, r.rng⟩ r.writes
  | Ev.eof =>
    StepRes.halt ⟨cleanupState ls.st ls.ctx, { ls.ctx with room_code := none }, ls.rng⟩ []
  | Ev.rxMsg =>
    match ls.ctx.room_rx with
    | some rx =>
      let ms := (roomAt ls.st rx.room).msgs
      if rx.seen < ms.length then
        StepRes.cont ⟨ls.st, { ls.ctx with room_rx := some ⟨rx.room, rx.seen + 1⟩ }, ls.rng⟩
          [ms.getD rx.seen [], chars "\n"]
      else StepRes.cont ls []
    | none => StepRes.cont ls []
  | Ev.rxLagged n =>
    match ls.ctx.room_rx with
    | some _ =>
      StepRes.cont ls [chars "[server] Warning: skipped " ++ (Nat.repr n).data ++ chars " message\n"]
    | none => StepRes.cont ls []
  | Ev.rxClosed =>
    match ls.ctx.room_rx with
    | some _ =>
      StepRes.cont ⟨ls.st, { ls.ctx with room_rx := none }, ls.rng⟩ [chars "[server] Room closed\n"]
    | none => StepRes.cont ls []

/-- The whole session loop over a finite schedule of events: final loop
state, everything written to the client, and whether the loop exited. -/
structure RunRes where
  ls : LoopState
  outs : List (List Char)
  exited : Bool

/-- Run `session_step` over a schedule of events, stopping early when an
iteration leaves the loop. -/
def session_run (ls : LoopState) : List Ev → RunRes
  | [] => ⟨ls, [], false⟩
  | e :: es =>
    match session_step ls e with
    | StepRes.cont ls1 o =>
      let r := session_run ls1 es
      ⟨r.ls, o ++ r.outs, r.exited⟩
    | StepRes.halt ls1 o => ⟨ls1, o, true⟩

/-- The server state of a freshly started process: no rooms. -/
def emptyState : ServerState := ⟨[], fun _ => none⟩

/-- A one-room server state: room code AB in heap slot 0, one member, no
messages yet. -/
def oneRoomState : ServerState :=
  ⟨[⟨1, [], 512⟩], fun c => if c = chars "AB" then some 0 else none⟩

/-- A session context of nickname N, inside room AB, holding a fresh
subscription to heap slot 0. -/
def inRoomCtx : ClientCtx := ⟨some (chars "N"), some (chars "AB"), some ⟨0, 0⟩⟩

/-- The loop state of that session. -/
def inRoomLs : LoopState := ⟨oneRoomState, inRoomCtx, []⟩

/-- A two-room server state: code AA in slot 0 and code BB in slot 1, one
member each. -/
def twoRoomState : ServerState :=
  ⟨[⟨1, [], 512⟩, ⟨1, [], 512⟩],
   fun c => if c = chars "AA" then some 0 else if c = chars "BB" then some 1 else none⟩

/-- A session of nickname N currently in room AA of `twoRoomState`. -/
def inRoomAACtx : ClientCtx := ⟨some (chars "N"), some (chars "AA"), some ⟨0, 0⟩⟩

/-- A registry owning exactly the single-character code A (heap slot 0),
with an empty room in that slot. -/
def stOnlyA : ServerState :=
  ⟨[Room.new 512], fun c => if c = chars "A" then some 0 else none⟩

/-- The leave sequence of the session logic, as one state transformer on
the old room in heap slot `j`: decrement the member counter, broadcast the
departure announcement.  (The registry reap is applied on top of it.) -/
def leaveSeq (st : ServerState) (j : Nat) (nick : List Char) : ServerState :=
  heapSend (heapDec st j) j (chars "[server] " ++ nick ++ chars " left.")

/-- The join effects on the target room in heap slot `i`: increment the
member counter, broadcast the arrival announcement. -/
def joinSeq (st : ServerState) (i : Nat) (nick : List Char) : ServerState :=
  heapSend (heapInc st i) i (chars "[server] " ++ nick ++ chars " joined.")

/-- A call to the member counter of one room: `inc()` or `dec()`. -/
inductive CounterOp
  | inc
  | dec
deriving DecidableEq, Repr

/-- Apply one counter call to a room. -/
def applyOp (r : Room) : CounterOp → Room
  | CounterOp.inc => r.inc
  | CounterOp.dec => r.dec

/-- Run a sequence of counter calls on a freshly created room. -/
def runOps (ops : List CounterOp) : Room := ops.foldl applyOp (Room.new 512)

/-- Number of `inc()` calls in a sequence. -/
def countInc : List CounterOp → Nat
  | [] => 0
  | CounterOp.inc :: rest => countInc rest + 1
  | CounterOp.dec :: rest => countInc rest

/-- Number of `dec()` calls in a sequence. -/
def countDec : List CounterOp → Nat
  | [] => 0
  | CounterOp.inc :: rest => countDec rest
  | CounterOp.dec :: rest => countDec rest + 1

/-- C9: the four documented parsing examples: the argument of NICK keeps its
case while the command word is case-insensitive; JOIN uppercases the room
code; a trailing space after MSG is trimmed away so the remainder is
missing; an unknown word is reported uppercased. -/
theorem parse_command_examples :
    parse_command (chars "nick Alice") = Except.ok (Command.Nick (chars "Alice")) ∧
    parse_command (chars "JOIN ab12") = Except.ok (Command.Join (chars "AB12")) ∧
    parse_command (chars "msg ") = Except.error (chars "usage: MSG <text>") ∧
    parse_command (chars "dance") = Except.error (chars "unknown command: DANCE") := by
  refine ⟨?_, ?_, ?_, ?_⟩ <;> rfl

/-- C1: the farewell is written, but the session loop does NOT terminate at
Quit: `handle_command` signals the quit through `Err("client quit")` and the
dispatcher in `handle` swallows every `Err` by printing an `[error]` line
and looping.  Evaluating the loop on the lines QUIT then HELP shows the
HELP after the QUIT is still parsed and answered, and the loop never
exited (the claim says nothing after Quit is read or processed). -/
theorem quit_does_not_end_session :
    session_run ⟨emptyState, ClientCtx.new, []⟩
        [Ev.line (chars "QUIT"), Ev.line (chars "HELP")] =
      ⟨⟨emptyState, ClientCtx.new, []⟩,
       [chars "Goodbye.\n", chars "[error] client quit\n", helpText], false⟩ := rfl

/-- C2 counterexample: the closed-channel branch clears the subscription
but leaves the stored room code in place, so after it fires the session
context has a room code and no subscription: the claimed equivalence fails
on that reachable context. -/
theorem closed_channel_breaks_equivalence :
    session_step inRoomLs Ev.rxClosed =
      StepRes.cont ⟨oneRoomState, ⟨some (chars "N"), some (chars "AB"), none⟩, []⟩
        [chars "[server] Room closed\n"] ∧
    ¬((ClientCtx.mk (some (chars "N")) (some (chars "AB")) none).room_rx.isSome = true ↔
      (ClientCtx.mk (some (chars "N")) (some (chars "AB")) none).room_code.isSome = true) := by
  exact ⟨rfl, by decide⟩

/-- Helper: command dispatch preserves the direction of the session
invariant that survives the closed-channel handler: a held subscription
implies a stored room code. -/
theorem handle_command_rx_implies_code (st : ServerState) (ctx : ClientCtx) (rng : List Nat)
    (cmd : Command) (h : ctx.room_rx.isSome = true → ctx.room_code.isSome = true) :
    (handle_command st ctx rng cmd).ctx.room_rx.isSome = true →
      (handle_command st ctx rng cmd).ctx.room_code.isSome = true := by
  cases cmd with
  | Help => exact h
  | Quit => exact h
  | Nick name => exact h
  | Create =>
    cases hn : ctx.nick with
    | none => simp only [handle_command, hn]; exact h
    | some nick => simp only [handle_command, hn]; intro; rfl
  | Join code =>
    cases hn : ctx.nick with
    | none => simp only [handle_command, hn]; exact h
    | some nick =>
      cases hg : ServerState.get_room st code with
      | none => simp only [handle_command, hn, hg]; exact h
      | some i =>
        cases hc : ctx.room_code with
        | none => simp only [handle_command, hn, hg, hc]; intro; rfl
        | some old => simp only [handle_command, hn, hg, hc]; intro; rfl
  | Msg text =>
    cases hn : ctx.nick with
    | none => simp only [handle_command, hn]; exact h
    | some nick =>
      cases hc : ctx.room_code with
      | none =>
        simp only [handle_command, hn, hc]
        intro hx
        exact hc ▸ h hx
      | some code =>
        cases hg : ServerState.get_room st code with
        | none => simp only [handle_command, hn, hc, hg]; intro; rfl
        | some i => simp only [handle_command, hn, hc, hg]; intro; rfl

/-- C2 amended: every transition of the loop that keeps the session alive
preserves the one direction of the claimed equivalence that actually holds:
if a subscription is held then a room code is stored.  (The converse is
broken exactly by the closed-channel handler, which clears the
subscription but leaves the room code in place.) -/
theorem step_preserves_rx_implies_code (ls : LoopState) (e : Ev) (ls1 : LoopState)
    (outs : List (List Char))
    (h : ls.ctx.room_rx.isSome = true → ls.ctx.room_code.isSome = true)
    (hstep : session_step ls e = StepRes.cont ls1 outs) :
    ls1.ctx.room_rx.isSome = true → ls1.ctx.room_code.isSome = true := by
  cases e with
  | line s =>
    simp only [session_step] at hstep
    by_cases ht : trimChars s = []
    · rw [if_pos ht] at hstep; cases hstep; exact h
    · rw [if_neg ht] at hstep
      cases hp : parse_command (trimChars s) with
      | error e2 => simp only [hp] at hstep; cases hstep; exact h
      | ok cmd =>
        simp only [hp] at hstep
        cases herr : (handle_command ls.st ls.ctx ls.rng cmd).err with
        | some e2 =>
          simp only [herr] at hstep; cases hstep
          exact handle_command_rx_implies_code ls.st ls.ctx ls.rng cmd h
        | none =>
          simp only [herr] at hstep; cases hstep
          exact handle_command_rx_implies_code ls.st ls.ctx ls.rng cmd h
  | eof => exact absurd hstep (by simp [session_step])
  | rxMsg =>
    simp only [session_step] at hstep
    cases hr : ls.ctx.room_rx with
    | none => simp only [hr] at hstep; cases hstep; exact h
    | some rx =>
      simp only [hr] at hstep
      by_cases hlt : rx.seen < (roomAt ls.st rx.room).msgs.length
      · rw [if_pos hlt] at hstep; cases hstep
        intro
        exact h (by rw [hr]; rfl)
      · rw [if_neg hlt] at hstep; cases hstep; exact h
  | rxLagged n =>
    simp only [session_step] at hstep
    cases hr : ls.ctx.room_rx with
    | none => simp only [hr] at hstep; cases hstep; exact h
    | some rx => simp only [hr] at hstep; cases hstep; exact h
  | rxClosed =>
    simp only [session_step] at hstep
    cases hr : ls.ctx.room_rx with
    | none => simp only [hr] at hstep; cases hstep; exact h
    | some rx =>
      simp only [hr] at hstep; cases hstep
      intro hx
      exact absurd hx (by simp)

/-- Witness for the amended C2 theorem at a concrete in-room session and a
lag notification: the hypotheses hold and the preserved direction yields
the stored room code. -/
theorem step_preserves_rx_implies_code_witness :
    session_step inRoomLs (Ev.rxLagged 1) =
      StepRes.cont inRoomLs [chars "[server] Warning: skipped 1 message\n"] ∧
    inRoomCtx.room_code.isSome = true := by
  refine ⟨rfl, ?_⟩
  exact step_preserves_rx_implies_code inRoomLs (Ev.rxLagged 1) inRoomLs
    [chars "[server] Warning: skipped 1 message\n"] (fun _ => rfl) rfl rfl

/-- C3 counterexample: a session of nickname N alone in room AB dispatches
JoinRoom(AB) for the very same room.  The claim says no leave sequence is
performed then; in fact the dispatch succeeds and the leave sequence did
run: the departure announcement was broadcast, the counter was decremented
before being re-incremented (final count 1, not 2), and the reap even
removed AB from the registry because the count touched 0. -/
theorem same_room_join_runs_leave_sequence :
    inRoomCtx.room_code = some (chars "AB") ∧
    (handle_command oneRoomState inRoomCtx [] (Command.Join (chars "AB"))).err = none ∧
    chars "[server] N left." ∈
      (roomAt (handle_command oneRoomState inRoomCtx [] (Command.Join (chars "AB"))).st 0).msgs ∧
    (roomAt (handle_command oneRoomState inRoomCtx [] (Command.Join (chars "AB"))).st 0).users = 1 ∧
    (handle_command oneRoomState inRoomCtx [] (Command.Join (chars "AB"))).st.rooms
        (chars "AB") = none := by
  refine ⟨rfl, rfl, by decide, by decide, rfl⟩

/-- C3 amended: with a nickname set, JoinRoom(code) fails with
"no such room: code" and changes nothing when the registry has no entry
for code; on success the leave sequence (decrement the old room, announce
the departure, attempt the reap) is performed if and only if a current
room code is stored AND that code still resolves in the registry — even
when it equals the target room — and afterwards the session subscribes to
the target room, increments its count, announces the arrival, and stores
the new code. -/
theorem join_leave_iff_old_room_resolves (st : ServerState) (ctx : ClientCtx) (rng : List Nat)
    (code nick : List Char) (hn : ctx.nick = some nick) :
    (ServerState.get_room st code = none →
      handle_command st ctx rng (Command.Join code) =
        ⟨st, ctx, [], some (chars "no such room: " ++ code), rng⟩) ∧
    (∀ i, ServerState.get_room st code = some i → ctx.room_code = none →
      handle_command st ctx rng (Command.Join code) =
        ⟨joinSeq st i nick,
         { ctx with room_code := some code, room_rx := some ⟨i, (roomAt st i).subscribe⟩ },
         [chars "[ok] joined room '" ++ code ++ chars "'\n"], none, rng⟩) ∧
    (∀ i old, ServerState.get_room st code = some i → ctx.room_code = some old →
      ServerState.get_room st old = none →
      handle_command st ctx rng (Command.Join code) =
        ⟨joinSeq st i nick,
         { ctx with room_code := some code, room_rx := some ⟨i, (roomAt st i).subscribe⟩ },
         [chars "[ok] joined room '" ++ code ++ chars "'\n"], none, rng⟩) ∧
    (∀ i old j, ServerState.get_room st code = some i → ctx.room_code = some old →
      ServerState.get_room st old = some j →
      handle_command st ctx rng (Command.Join code) =
        ⟨joinSeq (ServerState.remove_if_empty (leaveSeq st j nick) old) i nick,
         ⟨ctx.nick, some code,
          some ⟨i, (roomAt (ServerState.remove_if_empty (leaveSeq st j nick) old) i).subscribe⟩⟩,
         [chars "[ok] joined room '" ++ code ++ chars "'\n"], none, rng⟩) := by
  refine ⟨?_, ?_, ?_, ?_⟩
  · intro hg
    simp only [handle_command, hn, hg]
  · intro i hg hc
    simp only [handle_command, hn, hg, hc, joinSeq]
  · intro i old hg hc hgo
    simp only [handle_command, hn, hg, hc, hgo, joinSeq]
  · intro i old j hg hc hgo
    simp only [handle_command, hn, hg, hc, hgo, joinSeq, leaveSeq]

/-- Witness for the amended C3 theorem: nickname N moves from room AA (one
member) to room BB; the hypotheses of the leave case hold, the dispatch
succeeds, the emptied old room AA is reaped from the registry, and the
target room counts two members. -/
theorem join_leave_iff_old_room_resolves_witness :
    (handle_command twoRoomState inRoomAACtx [] (Command.Join (chars "BB"))).err = none ∧
    (handle_command twoRoomState inRoomAACtx [] (Command.Join (chars "BB"))).st.rooms
        (chars "AA") = none ∧
    (roomAt (handle_command twoRoomState inRoomAACtx [] (Command.Join (chars "BB"))).st 1).users
        = 2 := by
  have h := (join_leave_iff_old_room_resolves twoRoomState inRoomAACtx [] (chars "BB")
    (chars "N") rfl).2.2.2 1 (chars "AA") 0 rfl rfl rfl
  rw [h]
  exact ⟨rfl, rfl, by decide⟩

/-- Helper: `getD` at an in-range index returns an element of the list. -/
theorem getD_mem_of_lt (l : List Char) (i : Nat) (d : Char) (h : i < l.length) :
    l.getD i d ∈ l := by
  rw [List.getD_eq_getElem?_getD, List.getElem?_eq_getElem h]
  exact List.getElem_mem h

/-- C4 counterexample: the fixed alphabet has 31 characters, not the 32 the
claim states (23 letters once I, L and O are dropped, plus the 8 digits
2-9). -/
theorem alphabet_has_31_characters : ALPHABET.length = 31 ∧ ALPHABET.length ≠ 32 := by
  decide

/-- C4 amended: for every draw stream and length, `make_code` returns
exactly `len` characters, all from the fixed 31-character alphabet, which
indeed excludes the easily confused 0, O, 1, I and L. -/
theorem make_code_length_alphabet (rng : List Nat) (len : Nat) :
    (make_code rng len).1.length = len ∧
    (∀ c ∈ (make_code rng len).1, c ∈ ALPHABET) ∧
    ALPHABET.length = 31 ∧
    '0' ∉ ALPHABET ∧ 'O' ∉ ALPHABET ∧ '1' ∉ ALPHABET ∧ 'I' ∉ ALPHABET ∧ 'L' ∉ ALPHABET := by
  refine ⟨?_, ?_, by decide, by decide, by decide, by decide, by decide, by decide⟩
  · induction len generalizing rng with
    | zero => rfl
    | succ n ih => simp only [make_code, List.length_cons, ih]
  · induction len generalizing rng with
    | zero => intro c hc; simp [make_code] at hc
    | succ n ih =>
      intro c hc
      simp only [make_code, List.mem_cons] at hc
      rcases hc with hc | hc
      · subst hc
        exact getD_mem_of_lt _ _ _ (Nat.mod_lt _ (by decide))
      · exact ih rng.tail c hc

/-- Witness for the amended C4 theorem at a concrete stream and length. -/
theorem make_code_length_alphabet_witness :
    make_code [0, 1, 2] 3 = (chars "ABC", []) ∧ (make_code [0, 1, 2] 3).1.length = 3 :=
  ⟨by decide, (make_code_length_alphabet [0, 1, 2] 3).1⟩

/-- Helper: the draw stream after `i + 1` attempts is the stream after `i`
attempts starting from the stream one attempt advanced. -/
theorem rngAfter_shift (rng : List Nat) (len i : Nat) :
    rngAfter rng len (i + 1) = rngAfter (make_code rng len).2 len i := by
  induction i with
  | zero => rfl
  | succ k ih =>
    show (make_code (rngAfter rng len (k + 1)) len).2 = _
    rw [ih]
    rfl

/-- Helper: candidate `i + 1` of the retry loop is candidate `i` of the
loop started one attempt later. -/
theorem cand_shift (rng : List Nat) (len i : Nat) :
    cand rng len (i + 1) = cand (make_code rng len).2 len i := by
  unfold cand
  rw [rngAfter_shift]

/-- Helper: when the first absent candidate has index `i0 < fuel`, the
retry loop returns exactly that candidate (and the stream after it). -/
theorem unique_go_first_absent (st : ServerState) (len : Nat) :
    ∀ fuel rng i0, i0 < fuel →
      st.contains_key (cand rng len i0) = false →
      (∀ j, j < i0 → st.contains_key (cand rng len j) = true) →
      unique_go st len fuel rng = (cand rng len i0, (make_code (rngAfter rng len i0) len).2) := by
  intro fuel
  induction fuel with
  | zero => intro rng i0 h; exact absurd h (Nat.not_lt_zero i0)
  | succ f ih =>
    intro rng i0 hlt habs hmin
    cases i0 with
    | zero =>
      have habs2 : st.contains_key (make_code rng len).1 = false := habs
      simp only [unique_go, habs2]
      rfl
    | succ k =>
      have h0 : st.contains_key (make_code rng len).1 = true := hmin 0 (Nat.succ_pos k)
      simp only [unique_go, h0, if_true]
      rw [cand_shift, rngAfter_shift]
      exact ih (make_code rng len).2 k (Nat.lt_of_succ_lt_succ hlt)
        (by rw [← cand_shift]; exact habs)
        (fun j hj => by rw [← cand_shift]; exact hmin (j + 1) (Nat.succ_lt_succ hj))

/-- Helper: when every candidate up to `fuel` collides, the retry loop
falls through to one `make_code(len + 1)` call. -/
theorem unique_go_all_collide (st : ServerState) (len : Nat) :
    ∀ fuel rng, (∀ i, i < fuel → st.contains_key (cand rng len i) = true) →
      unique_go st len fuel rng = make_code (rngAfter rng len fuel) (len + 1) := by
  intro fuel
  induction fuel with
  | zero => intro rng h; rfl
  | succ f ih =>
    intro rng h
    have h0 : st.contains_key (make_code rng len).1 = true := h 0 (Nat.succ_pos f)
    simp only [unique_go, h0, if_true]
    rw [ih (make_code rng len).2
      (fun i hi => by rw [← cand_shift]; exact h (i + 1) (Nat.succ_lt_succ hi))]
    rw [rngAfter_shift]

/-- C6: whenever some candidate among the 16 attempts is absent from the
registry, `unique_code` returns the first such candidate — a code not
present as a key; and when all 16 collide it returns the result of a
single `make_code(len + 1)` call, with no further registry check. -/
theorem unique_code_spec (st : ServerState) (rng : List Nat) (len : Nat) :
    (∀ i0, i0 < 16 → st.contains_key (cand rng len i0) = false →
      (∀ j, j < i0 → st.contains_key (cand rng len j) = true) →
      (unique_code st rng len).1 = cand rng len i0 ∧
        st.contains_key (unique_code st rng len).1 = false) ∧
    ((∀ i, i < 16 → st.contains_key (cand rng len i) = true) →
      unique_code st rng len = make_code (rngAfter rng len 16) (len + 1)) := by
  constructor
  · intro i0 h1 h2 h3
    have h := unique_go_first_absent st len 16 rng i0 h1 h2 h3
    unfold unique_code
    rw [h]
    exact ⟨rfl, h2⟩
  · intro hall
    exact unique_go_all_collide st len 16 rng hall

/-- Witness for C6 on the exhaustion path: with an all-zero draw stream and
length 1 every one of the 16 candidates is the registered code A, and the
fallback returns the length-2 code AA without any registry check (the
hypotheses of the second conjunct hold and the conclusion evaluates). -/
theorem unique_code_spec_witness :
    (∀ i, i < 16 → stOnlyA.contains_key (cand [] 1 i) = true) ∧
    unique_code stOnlyA [] 1 = (chars "AA", []) := by
  refine ⟨by decide, ?_⟩
  rw [(unique_code_spec stOnlyA [] 1).2 (by decide)]
  decide

/-- C7: `remove_if_empty` removes the entry for `code` exactly when it is
present with snapshot member count 0; a nonzero snapshot or an absent code
leaves the whole state untouched, every other registry key is unaffected,
and the room heap is never modified. -/
theorem remove_if_empty_spec (st : ServerState) (code : List Char) :
    (∀ i, st.rooms code = some i → (roomAt st i).len = 0 →
      (ServerState.remove_if_empty st code).rooms code = none) ∧
    (∀ i, st.rooms code = some i → (roomAt st i).len ≠ 0 →
      ServerState.remove_if_empty st code = st) ∧
    (st.rooms code = none → ServerState.remove_if_empty st code = st) ∧
    (∀ c, c ≠ code → (ServerState.remove_if_empty st code).rooms c = st.rooms c) ∧
    (ServerState.remove_if_empty st code).heap = st.heap := by
  refine ⟨?_, ?_, ?_, ?_, ?_⟩
  · intro i hi h0
    simp [ServerState.remove_if_empty, hi, h0]
  · intro i hi h0
    simp only [ServerState.remove_if_empty, hi]
    rw [if_neg h0]
  · intro h
    simp only [ServerState.remove_if_empty, h]
  · intro c hc
    unfold ServerState.remove_if_empty
    split
    · split
      · simp [hc]
      · rfl
    · rfl
  · unfold ServerState.remove_if_empty
    split
    · split <;> rfl
    · rfl

/-- Witness for C7 at a concrete registry: the empty room A is removed
while the unrelated key Q is untouched. -/
theorem remove_if_empty_spec_witness :
    (ServerState.remove_if_empty stOnlyA (chars "A")).rooms (chars "A") = none ∧
    (ServerState.remove_if_empty stOnlyA (chars "A")).rooms (chars "Q") =
      stOnlyA.rooms (chars "Q") :=
  ⟨(remove_if_empty_spec stOnlyA (chars "A")).1 0 rfl rfl,
   (remove_if_empty_spec stOnlyA (chars "A")).2.2.2.1 (chars "Q") (by decide)⟩

/-- Helper: the balance invariant of the member counter.  Starting from a
room holding `i - d` (with `d ≤ i` increments already matched), a suffix of
calls whose prefixes all keep the balance non-negative, and whose total
increments stay below the word size, folds to the exact balance. -/
theorem foldl_counter : ∀ (ops : List CounterOp) (r : Room) (i d : Nat),
    r.users = i - d → d ≤ i →
    (∀ n, n ≤ ops.length → d + countDec (ops.take n) ≤ i + countInc (ops.take n)) →
    i + countInc ops < USIZE →
    (ops.foldl applyOp r).users = (i + countInc ops) - (d + countDec ops) := by
  intro ops
  induction ops with
  | nil =>
    intro r i d hu hd hp hb
    simpa [countInc, countDec] using hu
  | cons op rest ih =>
    intro r i d hu hd hp hb
    cases op with
    | inc =>
      have hci : countInc (CounterOp.inc :: rest) = countInc rest + 1 := rfl
      have hcd : countDec (CounterOp.inc :: rest) = countDec rest := rfl
      have hulo : r.users + 1 < USIZE := by
        rw [hci] at hb
        omega
      have hinc : (applyOp r CounterOp.inc).users = r.users + 1 := by
        simp only [applyOp, Room.inc]
        exact Nat.mod_eq_of_lt hulo
      have hstep := ih (applyOp r CounterOp.inc) (i + 1) d
        (by rw [hinc]; omega) (by omega)
        (by
          intro n hn
          have h2 := hp (n + 1) (by simpa using Nat.succ_le_succ hn)
          simp only [List.take_succ_cons, countInc, countDec] at h2
          omega)
        (by rw [hci] at hb; omega)
      rw [List.foldl_cons] at *
      rw [hstep, hci, hcd]
      omega
    | dec =>
      have hci : countInc (CounterOp.dec :: rest) = countInc rest := rfl
      have hcd : countDec (CounterOp.dec :: rest) = countDec rest + 1 := rfl
      have hdi : d + 1 ≤ i := by
        have h1 := hp 1 (by simp)
        simp only [List.take_succ_cons, List.take_zero, countInc, countDec] at h1
        omega
      have hu1 : 1 ≤ r.users := by omega
      have huU : r.users < USIZE := by omega
      have hdec : (applyOp r CounterOp.dec).users = r.users - 1 := by
        simp only [applyOp, Room.dec]
        have hsplit : r.users + (USIZE - 1) = (r.users - 1) + 1 * USIZE := by omega
        rw [hsplit, Nat.add_mul_mod_self_right]
        exact Nat.mod_eq_of_lt (by omega)
      have hstep := ih (applyOp r CounterOp.dec) i (d + 1)
        (by rw [hdec]; omega) hdi
        (by
          intro n hn
          have h2 := hp (n + 1) (by simpa using Nat.succ_le_succ hn)
          simp only [List.take_succ_cons, countInc, countDec] at h2
          omega)
        (by rw [hci] at hb; omega)
      rw [List.foldl_cons] at *
      rw [hstep, hci, hcd]
      omega

/-- Helper: increments in a prefix never exceed those of the whole list. -/
theorem countInc_take_le : ∀ (ops : List CounterOp) (n : Nat),
    countInc (ops.take n) ≤ countInc ops := by
  intro ops
  induction ops with
  | nil => intro n; simp [countInc]
  | cons op rest ih =>
    intro n
    cases n with
    | zero => simp [countInc]
    | succ m =>
      cases op with
      | inc =>
        simp only [List.take_succ_cons, countInc]
        exact Nat.succ_le_succ (ih m)
      | dec =>
        simp only [List.take_succ_cons, countInc]
        exact ih m

/-- C8 counterexample: a sequence of 2^64 increments (and no decrements at
all, so every decrement is vacuously paired) wraps the 64-bit counter back
to 0, which differs from the claimed value of increments minus decrements. -/
theorem usize_increments_wrap_counter :
    (∀ n, n ≤ (List.replicate USIZE CounterOp.inc).length →
      countDec ((List.replicate USIZE CounterOp.inc).take n) ≤
        countInc ((List.replicate USIZE CounterOp.inc).take n)) ∧
    (runOps (List.replicate USIZE CounterOp.inc)).users = 0 ∧
    countInc (List.replicate USIZE CounterOp.inc) -
      countDec (List.replicate USIZE CounterOp.inc) = USIZE ∧
    (0 : Nat) ≠ USIZE := by
  have hci : ∀ n, countInc (List.replicate n CounterOp.inc) = n := by
    intro n
    induction n with
    | zero => rfl
    | succ k ih => simp [List.replicate_succ, countInc, ih]
  have hcd : ∀ n, countDec (List.replicate n CounterOp.inc) = 0 := by
    intro n
    induction n with
    | zero => rfl
    | succ k ih => simp [List.replicate_succ, countDec, ih]
  have hrun : ∀ (n : Nat) (r : Room), r.users < USIZE →
      ((List.replicate n CounterOp.inc).foldl applyOp r).users = (r.users + n) % USIZE := by
    intro n
    induction n with
    | zero =>
      intro r hr
      simpa using (Nat.mod_eq_of_lt hr).symm
    | succ k ih =>
      intro r hr
      rw [List.replicate_succ, List.foldl_cons]
      have hlt : (applyOp r CounterOp.inc).users < USIZE := by
        simp only [applyOp, Room.inc]
        exact Nat.mod_lt _ (by norm_num [USIZE])
      rw [ih (applyOp r CounterOp.inc) hlt]
      show ((r.users + 1) % USIZE + k) % USIZE = _
      rw [Nat.mod_add_mod]
      congr 1
      omega
  refine ⟨?_, ?_, ?_, by norm_num [USIZE]⟩
  · intro n hn
    rw [List.take_replicate, hcd]
    exact Nat.zero_le _
  · unfold runOps
    rw [hrun USIZE (Room.new 512) (by norm_num [Room.new, USIZE])]
    simp [Room.new]
  · rw [hci, hcd]
    omega

/-- C8 amended: for every sequence of counter calls in which each prefix
keeps decrements at most increments (each decrement is preceded by a
matching unconsumed increment) and whose total number of increments stays
below 2^64 (the counter is a 64-bit machine word), the counter read at
every prefix equals exactly increments minus decrements so far — in
particular it never wraps below zero. -/
theorem paired_counter_spec (ops : List CounterOp)
    (hp : ∀ n, n ≤ ops.length → countDec (ops.take n) ≤ countInc (ops.take n))
    (hb : countInc ops < USIZE) :
    ∀ n, n ≤ ops.length →
      (runOps (ops.take n)).users = countInc (ops.take n) - countDec (ops.take n) := by
  intro n hn
  have hball : ∀ m, m ≤ (ops.take n).length →
      0 + countDec ((ops.take n).take m) ≤ 0 + countInc ((ops.take n).take m) := by
    intro m hm
    rw [List.take_take]
    have := hp (min m n) (le_trans (min_le_right m n) hn)
    omega
  have hbb : 0 + countInc (ops.take n) < USIZE :=
    lt_of_le_of_lt (by simpa using countInc_take_le ops n) hb
  have h := foldl_counter (ops.take n) (Room.new 512) 0 0 rfl (Nat.le_refl 0) hball hbb
  unfold runOps
  omega

/-- Witness for the amended C8 theorem on the sequence inc, inc, dec: the
pairing and bound hypotheses hold and the counter reads 2 - 1 = 1. -/
theorem paired_counter_spec_witness :
    (runOps ([CounterOp.inc, CounterOp.inc, CounterOp.dec].take 3)).users =
      countInc ([CounterOp.inc, CounterOp.inc, CounterOp.dec].take 3) -
        countDec ([CounterOp.inc, CounterOp.inc, CounterOp.dec].take 3) ∧
    (runOps [CounterOp.inc, CounterOp.inc, CounterOp.dec]).users = 1 :=
  ⟨paired_counter_spec [CounterOp.inc, CounterOp.inc, CounterOp.dec] (by decide) (by decide) 3
      (by decide),
   by decide⟩

/-- C10 counterexample: the claim says that after an unpaired decrement the
room "can never" satisfy the count-is-zero condition of `remove_if_empty`;
in fact a single further increment wraps the counter from 2^64 - 1 back to
exactly 0, after which `remove_if_empty` does remove the room (here with a
live member holding it). -/
theorem wrapped_counter_reaches_zero_again :
    (Room.new 512).dec.users = USIZE - 1 ∧
    ((Room.new 512).dec).inc.users = 0 ∧
    (ServerState.remove_if_empty
        ⟨[((Room.new 512).dec).inc], fun c => if c = chars "B" then some 0 else none⟩
        (chars "B")).rooms (chars "B") = none := by
  refine ⟨by decide, by decide, by decide⟩

/-- C10 amended: `dec()` on a room whose member count is 0 wraps the
unsigned 64-bit counter to 2^64 - 1 instead of failing or staying at 0;
`len()` then returns that huge nonzero value and `remove_if_empty` leaves
any registry entry holding that room untouched — until a subsequent
increment wraps the counter back to 0 (a single one suffices). -/
theorem unpaired_dec_wraps (r : Room) (h : r.users = 0) :
    r.dec.users = USIZE - 1 ∧
    r.dec.len ≠ 0 ∧
    (∀ st code i, st.rooms code = some i → roomAt st i = r.dec →
      ServerState.remove_if_empty st code = st) ∧
    r.dec.inc.users = 0 := by
  have hU : 0 < USIZE := by norm_num [USIZE]
  have hU2 : 2 ≤ USIZE := by norm_num [USIZE]
  have h1 : r.dec.users = USIZE - 1 := by
    simp only [Room.dec, h, Nat.zero_add]
    exact Nat.mod_eq_of_lt (by omega)
  refine ⟨h1, ?_, ?_, ?_⟩
  · rw [Room.len, h1]
    omega
  · intro st code i hst hr
    have hne : ¬(roomAt st i).len = 0 := by
      rw [hr, Room.len, h1]
      omega
    simp only [ServerState.remove_if_empty, hst]
    rw [if_neg hne]
  · simp only [Room.inc, h1]
    rw [Nat.sub_add_cancel hU, Nat.mod_self]

/-- Witness for the amended C10 theorem: the fresh room at count 0, once
decremented, reads 2^64 - 1 and survives the reap of its registry entry. -/
theorem unpaired_dec_wraps_witness :
    (Room.new 512).dec.users = USIZE - 1 ∧
    ServerState.remove_if_empty
        ⟨[(Room.new 512).dec], fun c => if c = chars "C" then some 0 else none⟩
        (chars "C") =
      ⟨[(Room.new 512).dec], fun c => if c = chars "C" then some 0 else none⟩ :=
  ⟨(unpaired_dec_wraps (Room.new 512) rfl).1,
   (unpaired_dec_wraps (Room.new 512) rfl).2.2.1
     ⟨[(Room.new 512).dec], fun c => if c = chars "C" then some 0 else none⟩
     (chars "C") 0 rfl rfl⟩

/-- Helper: the head surviving a `dropWhile` fails the predicate. -/
theorem head_dropWhile_false (p : Char → Bool) (l : List Char) (x : Char)
    (h : (l.dropWhile p).head? = some x) : p x = false := by
  have h2 := List.head?_dropWhile_not p l
  rw [h] at h2
  exact h2

/-- Helper: trimmed text never ends in a whitespace character. -/
theorem trim_getLast_not_ws (s : List Char) (x : Char)
    (h : (trimChars s).getLast? = some x) : isRustWhitespace x = false := by
  unfold trimChars at h
  rw [List.getLast?_reverse] at h
  exact head_dropWhile_false _ _ _ h

/-- Helper: a successful first-space split decomposes the input around the
first space. -/
theorem splitFirstSpace_append : ∀ (l a b : List Char),
    splitFirstSpace l = (a, some b) → l = a ++ ' ' :: b := by
  intro l
  induction l with
  | nil => intro a b h; simp [splitFirstSpace] at h
  | cons c cs ih =>
    intro a b h
    by_cases hc : c = ' '
    · subst hc
      rw [show splitFirstSpace (' ' :: cs) = ([], some cs) from rfl] at h
      injection h with h1 h2
      injection h2 with h3
      rw [← h1, ← h3]
      rfl
    · simp only [splitFirstSpace, if_neg hc, Prod.mk.injEq] at h
      obtain ⟨h1, h2⟩ := h
      have hsp : splitFirstSpace cs = ((splitFirstSpace cs).1, some b) := by
        rw [← h2]
      rw [← h1, List.cons_append]
      exact congrArg (c :: ·) (ih _ _ hsp)

/-- Helper: an element failing the predicate survives into `dropWhile`. -/
theorem exists_false_dropWhile (p : Char → Bool) : ∀ (l : List Char) (x : Char),
    x ∈ l → p x = false → ∃ y, y ∈ l.dropWhile p ∧ p y = false := by
  intro l
  induction l with
  | nil => intro x hx; cases hx
  | cons c cs ih =>
    intro x hx hpx
    by_cases hc : p c = true
    · rw [List.dropWhile_cons_of_pos hc]
      rcases List.mem_cons.mp hx with hxc | hxcs
      · subst hxc; rw [hpx] at hc; cases hc
      · exact ih x hxcs hpx
    · rw [List.dropWhile_cons_of_neg hc]
      exact ⟨x, hx, hpx⟩

/-- Helper: a list whose last character is not whitespace has a nonempty
trim. -/
theorem trim_ne_nil_of_last (b : List Char) (x : Char)
    (hb : b.getLast? = some x) (hx : isRustWhitespace x = false) :
    trimChars b ≠ [] := by
  intro hnil
  unfold trimChars at hnil
  rw [List.reverse_eq_nil_iff, List.dropWhile_eq_nil_iff] at hnil
  have hmem : x ∈ b := List.mem_of_getLast?_eq_some hb
  obtain ⟨y, hy, hpy⟩ := exists_false_dropWhile isRustWhitespace b x hmem hx
  have hcontra := hnil y (by rw [List.mem_reverse]; exact hy)
  rw [hpy] at hcontra
  cases hcontra

/-- Helper: the dead branch of the parser.  Because the input is trimmed
before it is split on the first space, a present remainder always carries
the non-whitespace last character of the line, so it can never trim to the
empty nickname: no input makes `parse_command` return the error
"nickname cannot be empty". -/
theorem nickname_empty_unreachable (line : List Char) :
    parse_command line ≠ Except.error (chars "nickname cannot be empty") := by
  intro h
  simp only [parse_command] at h
  split at h
  · exact Except.noConfusion h
  split at h
  · exact Except.noConfusion h
  split at h
  · -- NICK branch
    split at h
    · injection h with h2
      exact absurd h2 (by decide)
    · rename_i name hrest
      split at h
      · rename_i hname
        subst hname
        rw [Option.map_eq_some'] at hrest
        obtain ⟨b, hb2, hbtrim⟩ := hrest
        have hsp : splitFirstSpace (trimChars line) =
            ((splitFirstSpace (trimChars line)).1, some b) := by
          rw [← hb2]
        have hT := splitFirstSpace_append _ _ _ hsp
        have htne : trimChars line ≠ [] := by
          rw [hT]; simp
        obtain ⟨x, hx⟩ : ∃ x, (trimChars line).getLast? = some x := by
          cases hgl : (trimChars line).getLast? with
          | none => exact absurd (List.getLast?_eq_none_iff.mp hgl) htne
          | some x => exact ⟨x, rfl⟩
        have hxw := trim_getLast_not_ws line x hx
        have hbne : b ≠ [] := by
          intro hbnil
          subst hbnil
          rw [hT, List.getLast?_concat] at hx
          injection hx with hx2
          rw [← hx2] at hxw
          exact absurd hxw (by decide)
        have hbx : b.getLast? = some x := by
          cases b with
          | nil => exact absurd rfl hbne
          | cons b0 bs =>
            rw [hT, List.getLast?_append, List.getLast?_cons_cons] at hx
            cases hgl2 : (b0 :: bs).getLast? with
            | none => exact absurd (List.getLast?_eq_none_iff.mp hgl2) (by simp)
            | some z =>
              rw [hgl2, Option.or_some] at hx
              exact hx
        exact absurd hbtrim (trim_ne_nil_of_last b x hbx hxw)
      · exact Except.noConfusion h
  split at h
  · exact Except.noConfusion h
  split at h
  · -- JOIN branch
    split at h
    · injection h with h2
      exact absurd h2 (by decide)
    · exact Except.noConfusion h
  split at h
  · -- MSG branch
    split at h
    · injection h with h2
      exact absurd h2 (by decide)
    · exact Except.noConfusion h
  · -- unknown command branch
    injection h with h2
    have h3 : chars "unknown command: " = 'u' :: chars "nknown command: " := by decide
    rw [h3, List.cons_append] at h2
    injection h2 with hc _
    exact absurd hc (by decide)

/-- C5 counterexample: no input line at all makes `parse_command` return
"nickname cannot be empty" — the claimed producing input does not exist,
because the line is trimmed before the first-space split, so a present
remainder always ends in a non-whitespace character. -/
theorem nickname_empty_error_not_producible :
    ¬∃ line, parse_command line = Except.error (chars "nickname cannot be empty") := by
  intro hex
  obtain ⟨line, h⟩ := hex
  exact nickname_empty_unreachable line h

/-- C5 amended: a NICK line with the remainder missing returns
"usage: NICK <name>", and the "nickname cannot be empty" branch is dead
code: no input produces it. -/
theorem nick_usage_error_and_empty_branch_dead :
    parse_command (chars "NICK") = Except.error (chars "usage: NICK <name>") ∧
    ∀ line, parse_command line ≠ Except.error (chars "nickname cannot be empty") :=
  ⟨rfl, nickname_empty_unreachable⟩

/-- Witness for the amended C5 theorem at a concrete NICK line with
trailing whitespace, the nearest candidate for the dead branch. -/
theorem nick_usage_error_and_empty_branch_dead_witness :
    parse_command (chars "NICK   ") ≠ Except.error (chars "nickname cannot be empty") :=
  nick_usage_error_and_empty_branch_dead.2 (chars "NICK   ")
